import Mathlib

/-!
Verification of the skills installer core (installer module, skills module)
against its specification: name sanitization, path containment, the
symlink-or-copy projector, content copying, reconciliation and discovery.

Strings are modelled as lists of characters; filesystem paths in resolved,
normalized absolute form are modelled as lists of path components.
-/

namespace SkillsInstall

/-- One character of JS `String.prototype.toLowerCase`, on the ASCII range:
uppercase ASCII letters (code points 65..90) map to their lowercase forms
(+32); every other character is left unchanged.  The character class used by
the subsequent replace step admits only ASCII characters, so only the ASCII
behaviour of toLowerCase is relevant to the properties proved here. -/
def toLowerChar (c : Char) : Char :=
  if 65 ≤ c.toNat ∧ c.toNat ≤ 90 then Char.ofNat (c.toNat + 32) else c

/-- Membership in the regex character class `[a-z0-9._]` of sanitizeName's
replace step: lowercase ASCII letters (97..122), digits (48..57),
the dot (46) and the underscore (95). -/
def isAllowed (c : Char) : Bool :=
  (97 ≤ c.toNat && c.toNat ≤ 122) || (48 ≤ c.toNat && c.toNat ≤ 57) ||
    c.toNat == 46 || c.toNat == 95

/-- The replace step `.replace(/[^a-z0-9._]+/g, '-')`: every maximal run of
characters outside `[a-z0-9._]` becomes a single hyphen.  The Boolean flag
records whether the previous character belonged to such a run. -/
def collapseRuns : Bool → List Char → List Char
  | _, [] => []
  | inRun, c :: cs =>
    if isAllowed c then c :: collapseRuns false cs
    else if inRun then collapseRuns true cs
    else '-' :: collapseRuns true cs

/-- Membership in the class `[.\-]` stripped from the ends by
`.replace(/^[.\-]+|[.\-]+$/g, '')`. -/
def isDotDash (c : Char) : Bool := c == '.' || c == '-'

/-- `.replace(/^[.\-]+|[.\-]+$/g, '')`: remove the leading run and the
trailing run of dots and hyphens. -/
def stripEnds (l : List Char) : List Char :=
  ((l.dropWhile isDotDash).reverse.dropWhile isDotDash).reverse

/-- The fixed placeholder returned when sanitization empties the name. -/
def fallbackName : List Char := "unnamed-skill".toList

/-- The chained replace steps of sanitizeName before truncation:
lowercase, collapse runs of disallowed characters to single hyphens,
strip leading/trailing dots and hyphens. -/
def preSanitize (name : List Char) : List Char :=
  stripEnds (collapseRuns false (name.map toLowerChar))

/-- `sanitizeName` from the installer: lowercase, collapse runs of
disallowed characters to single hyphens, strip leading/trailing dots and
hyphens, truncate to 255 characters (`substring(0, 255)`), and fall back to
the fixed placeholder when the result is empty. -/
def sanitizeName (name : List Char) : List Char :=
  let t := (preSanitize name).take 255
  if t.isEmpty then fallbackName else t

example : sanitizeName "Convex Best Practices".toList = "convex-best-practices".toList := by decide
example : sanitizeName "../../etc/passwd".toList = "etc-passwd".toList := by decide
example : sanitizeName "".toList = fallbackName := by decide
example : sanitizeName "skill.v2_beta".toList = "skill.v2_beta".toList := by decide
example : sanitizeName ".-.-skill".toList = "skill".toList := by decide
example : sanitizeName "C:\\Windows\\System32".toList = "c-windows-system32".toList := by decide

/-! ### Character-set and shape invariants of sanitizeName -/

theorem charset_collapseRuns : ∀ (b : Bool) (l : List Char) (c : Char),
    c ∈ collapseRuns b l → isAllowed c = true ∨ c = '-'
  | _, [], _, h => by simp [collapseRuns] at h
  | b, a :: l, c, h => by
    simp only [collapseRuns] at h
    split at h
    · next ha =>
      rcases List.mem_cons.mp h with rfl | h
      · exact Or.inl ha
      · exact charset_collapseRuns false l c h
    · split at h
      · exact charset_collapseRuns true l c h
      · rcases List.mem_cons.mp h with rfl | h
        · exact Or.inr rfl
        · exact charset_collapseRuns true l c h

theorem head_collapseRuns_true : ∀ (l : List Char) (c : Char),
    (collapseRuns true l).head? = some c → isAllowed c = true
  | [], c, h => by simp [collapseRuns] at h
  | a :: l, c, h => by
    simp only [collapseRuns, if_true] at h
    split at h
    · next ha =>
      rw [List.head?_cons, Option.some.injEq] at h
      exact h ▸ ha
    · exact head_collapseRuns_true l c h

/-- No two adjacent characters are both outside the allowed class; in
particular no two adjacent hyphens occur. -/
def SepOK (l : List Char) : Prop :=
  l.Chain' (fun a b => isAllowed a = true ∨ isAllowed b = true)

theorem sepOK_collapseRuns : ∀ (b : Bool) (l : List Char), SepOK (collapseRuns b l)
  | _, [] => by simp [collapseRuns, SepOK]
  | b, a :: l => by
    simp only [collapseRuns, if_true]
    split
    · next ha =>
      rw [SepOK, List.chain'_cons']
      exact ⟨fun y _ => Or.inl ha, sepOK_collapseRuns false l⟩
    · split
      · exact sepOK_collapseRuns true l
      · rw [SepOK, List.chain'_cons']
        refine ⟨fun y hy => ?_, sepOK_collapseRuns true l⟩
        rw [Option.mem_def] at hy
        exact Or.inr (head_collapseRuns_true l y hy)

theorem stripEnds_prefix_drop (l : List Char) :
    stripEnds l <+: l.dropWhile isDotDash := by
  rw [stripEnds, ← List.reverse_suffix, List.reverse_reverse]
  exact List.dropWhile_suffix _

theorem stripEnds_within (l : List Char) : stripEnds l <:+: l :=
  (stripEnds_prefix_drop l).isInfix.trans (List.dropWhile_suffix _).isInfix

theorem preSanitize_take_within (s : List Char) :
    (preSanitize s).take 255 <:+: collapseRuns false (s.map toLowerChar) := by
  rw [preSanitize]
  exact ( List.take_prefix _ _).isInfix.trans (stripEnds_within _)

theorem charset_sanitizeName (s : List Char) :
    ∀ c ∈ sanitizeName s, isAllowed c = true ∨ c = '-' := by
  intro c hc
  have hfb : ∀ c ∈ fallbackName, isAllowed c = true ∨ c = '-' := by decide
  simp only [sanitizeName] at hc
  split at hc
  · exact hfb c hc
  · exact charset_collapseRuns false (s.map toLowerChar) c
      ((preSanitize_take_within s).subset hc)

theorem sepOK_sanitizeName (s : List Char) : SepOK (sanitizeName s) := by
  have hfb : SepOK fallbackName := by
    rw [SepOK, show fallbackName = ['u','n','n','a','m','e','d','-','s','k','i','l','l'] from rfl]
    simp only [List.chain'_cons, List.chain'_singleton]
    decide
  simp only [sanitizeName]
  split
  · exact hfb
  · exact List.Chain'.infix (sepOK_collapseRuns false (s.map toLowerChar))
      (preSanitize_take_within s)

theorem head_dropWhile_not (p : Char → Bool) :
    ∀ (l : List Char) (c : Char), (l.dropWhile p).head? = some c → p c = false
  | [], c, h => by simp at h
  | a :: l, c, h => by
    rw [List.dropWhile_cons] at h
    split at h
    · exact head_dropWhile_not p l c h
    · next hpa =>
      rw [List.head?_cons, Option.some.injEq] at h
      subst h
      exact Bool.not_eq_true _ ▸ hpa

theorem head_stripEnds (l : List Char) (c : Char)
    (h : (stripEnds l).head? = some c) : isDotDash c = false := by
  rcases stripEnds_prefix_drop l with ⟨t, ht⟩
  have hne : stripEnds l ≠ [] := by
    intro hnil
    rw [hnil] at h
    simp at h
  have : (l.dropWhile isDotDash).head? = some c := by
    rw [← ht, List.head?_append, ← h]
    cases hse : stripEnds l with
    | nil => exact absurd hse hne
    | cons a l' => simp
  exact head_dropWhile_not isDotDash l c this

theorem last_stripEnds (l : List Char) (c : Char)
    (h : (stripEnds l).getLast? = some c) : isDotDash c = false := by
  rw [← List.head?_reverse, stripEnds, List.reverse_reverse] at h
  exact head_dropWhile_not isDotDash _ c h

theorem head_take (l : List Char) (n : Nat) (c : Char)
    (h : (l.take n).head? = some c) : l.head? = some c := by
  cases l with
  | nil => simp at h
  | cons a l' =>
    cases n with
    | zero => simp at h
    | succ m => simpa using h

theorem head_sanitizeName (s : List Char) (c : Char)
    (h : (sanitizeName s).head? = some c) : isDotDash c = false := by
  simp only [sanitizeName] at h
  split at h
  · rw [show fallbackName.head? = some 'u' from rfl, Option.some.injEq] at h
    subst h
    decide
  · exact head_stripEnds _ c (head_take _ 255 c h)

theorem length_sanitizeName (s : List Char) : (sanitizeName s).length ≤ 255 := by
  simp only [sanitizeName]
  split
  · decide
  · rw [List.length_take]
    exact min_le_left _ _

theorem sanitizeName_ne_nil (s : List Char) : sanitizeName s ≠ [] := by
  simp only [sanitizeName]
  split
  · decide
  · next hne =>
    simpa using hne

/-- When no truncation happens (the pre-truncation result fits in 255
characters), the result also never ends in a dot or hyphen. -/
theorem last_sanitizeName_of_short (s : List Char)
    (hlen : (preSanitize s).length ≤ 255) (c : Char)
    (h : (sanitizeName s).getLast? = some c) : isDotDash c = false := by
  simp only [sanitizeName] at h
  split at h
  · rw [show fallbackName.getLast? = some 'l' from rfl, Option.some.injEq] at h
    subst h
    decide
  · rw [List.take_of_length_le hlen] at h
    exact last_stripEnds _ c h

/-! ### Idempotence machinery for sanitizeName -/

theorem toLowerChar_fix (c : Char) (h : isAllowed c = true ∨ c = '-') :
    toLowerChar c = c := by
  rw [toLowerChar, if_neg]
  rintro ⟨h1, h2⟩
  rcases h with h | rfl
  · simp only [isAllowed, Bool.or_eq_true, Bool.and_eq_true, decide_eq_true_eq,
      beq_iff_eq] at h
    omega
  · exact absurd h1 (by decide)

theorem map_toLower_fix (r : List Char)
    (h : ∀ c ∈ r, isAllowed c = true ∨ c = '-') : r.map toLowerChar = r := by
  have := List.map_congr_left (f := toLowerChar) (g := id)
    (fun a ha => toLowerChar_fix a (h a ha))
  simpa using this

theorem collapse_true_of_head (l : List Char)
    (h : ∀ c, l.head? = some c → isAllowed c = true) :
    collapseRuns true l = collapseRuns false l := by
  cases l with
  | nil => rfl
  | cons a l' => simp [collapseRuns, h a rfl]

theorem collapse_fix : ∀ (r : List Char),
    (∀ c ∈ r, isAllowed c = true ∨ c = '-') → SepOK r → collapseRuns false r = r
  | [], _, _ => rfl
  | a :: r, hch, hsep => by
    have hch' : ∀ c ∈ r, isAllowed c = true ∨ c = '-' :=
      fun c hc => hch c (List.mem_cons_of_mem a hc)
    rcases hch a (List.mem_cons_self a r) with ha | rfl
    · simp only [collapseRuns, ha, if_true]
      rw [collapse_fix r hch' hsep.tail]
    · have hdash : isAllowed '-' = false := by decide
      simp only [collapseRuns, hdash, Bool.false_eq_true, if_false]
      cases r with
      | nil => rfl
      | cons b r' =>
        have hb : isAllowed b = true := by
          rcases (List.chain'_cons.mp hsep).1 with h | h
          · exact absurd h (by simp [hdash])
          · exact h
        rw [collapse_true_of_head _ (fun c hc => by
              rw [List.head?_cons, Option.some.injEq] at hc
              exact hc ▸ hb),
            collapse_fix (b :: r') hch' hsep.tail]

theorem dropWhile_eq_self (p : Char → Bool) (l : List Char)
    (h : ∀ c, l.head? = some c → p c = false) : l.dropWhile p = l := by
  cases l with
  | nil => rfl
  | cons a l' =>
    rw [List.dropWhile_cons, if_neg (by simp [h a rfl])]

theorem stripEnds_fix (l : List Char)
    (hh : ∀ c, l.head? = some c → isDotDash c = false)
    (hl : ∀ c, l.getLast? = some c → isDotDash c = false) :
    stripEnds l = l := by
  rw [stripEnds, dropWhile_eq_self _ _ hh,
    dropWhile_eq_self _ _ (fun c hc => hl c (by rwa [List.head?_reverse] at hc)),
    List.reverse_reverse]

/-- C2 (corrected): sanitizeName always returns a value (it is a total
function with no effects), and applying it twice equals applying it once
for every input whose sanitized form does not end in `'.'` or `'-'`.
Truncation to 255 characters happens after end-stripping, so it can leave a
trailing `'.'` or `'-'` that a second application would remove; for all
other inputs the sanitizer is idempotent. -/
theorem C2_sanitizeName_idempotent (s : List Char)
    (h1 : (sanitizeName s).getLast? ≠ some '-')
    (h2 : (sanitizeName s).getLast? ≠ some '.') :
    sanitizeName (sanitizeName s) = sanitizeName s := by
  have hch := charset_sanitizeName s
  have hsep := sepOK_sanitizeName s
  have hne := sanitizeName_ne_nil s
  have hlen := length_sanitizeName s
  have hhead := head_sanitizeName s
  have hlast : ∀ c, (sanitizeName s).getLast? = some c → isDotDash c = false := by
    intro c hc
    cases hdd : isDotDash c
    · rfl
    · exfalso
      rw [isDotDash, Bool.or_eq_true, beq_iff_eq, beq_iff_eq] at hdd
      rcases hdd with rfl | rfl
      · exact h2 hc
      · exact h1 hc
  set r := sanitizeName s with hr
  have e4 : preSanitize r = r := by
    rw [preSanitize, map_toLower_fix r hch, collapse_fix r hch hsep,
      stripEnds_fix r hhead hlast]
  show sanitizeName r = r
  simp only [sanitizeName]
  rw [e4, List.take_of_length_le hlen, if_neg (by simpa using hne)]

/-- Witness for C2 at a concrete input. -/
theorem C2_sanitizeName_idempotent_witness :
    (sanitizeName "Convex Best Practices".toList).getLast? ≠ some '-' ∧
    sanitizeName (sanitizeName "Convex Best Practices".toList) =
      sanitizeName "Convex Best Practices".toList :=
  ⟨by decide, C2_sanitizeName_idempotent _ (by decide) (by decide)⟩

/-- Counterexample to C2 as stated: for a name whose stripped form is 256
characters long ending in a hyphen-letter pair, truncation keeps a trailing
hyphen, which the second application strips. -/
def truncDupName : List Char := List.replicate 254 'a' ++ [' ', 'c']

set_option maxRecDepth 100000 in
/-- C2 counterexample: sanitizeName is not idempotent on `truncDupName`. -/
theorem C2_sanitizeName_idempotent_cex :
    sanitizeName (sanitizeName truncDupName) ≠ sanitizeName truncDupName := by
  decide

/-- C3 (corrected): sanitizeName's result has length at most 255, is never
empty, never begins with `'.'` or `'-'`, and contains only characters of
the class `[a-z0-9._]` plus `'-'`; whenever the pre-truncation result
already fits in 255 characters the result also never ends with `'.'` or
`'-'` (with truncation, a trailing `'.'` or `'-'` is possible). -/
theorem C3_sanitizeName_shape (s : List Char) :
    (sanitizeName s).length ≤ 255 ∧
    sanitizeName s ≠ [] ∧
    (∀ c, (sanitizeName s).head? = some c → isDotDash c = false) ∧
    (∀ c ∈ sanitizeName s, isAllowed c = true ∨ c = '-') ∧
    ((preSanitize s).length ≤ 255 →
      ∀ c, (sanitizeName s).getLast? = some c → isDotDash c = false) :=
  ⟨length_sanitizeName s, sanitizeName_ne_nil s, head_sanitizeName s,
    charset_sanitizeName s, fun h c hc => last_sanitizeName_of_short s h c hc⟩

/-- Witness for C3 at a concrete input. -/
theorem C3_sanitizeName_shape_witness :
    sanitizeName "bun.sh".toList ≠ [] ∧ isDotDash 'b' = false ∧
    (isAllowed 's' = true ∨ 's' = '-') :=
  ⟨(C3_sanitizeName_shape "bun.sh".toList).2.1,
    (C3_sanitizeName_shape "bun.sh".toList).2.2.1 'b' (by decide),
    (C3_sanitizeName_shape "bun.sh".toList).2.2.2.1 's' (by decide)⟩

/-- Input whose stripped form is 256 characters and gets truncated right
after a hyphen. -/
def truncEdgeName : List Char := List.replicate 254 'a' ++ [' ', 'b']

set_option maxRecDepth 100000 in
/-- C3 counterexample: the sanitized result can end with `'-'` when the
255-character truncation cuts right after a hyphen. -/
theorem C3_sanitizeName_shape_cex :
    (sanitizeName truncEdgeName).getLast? = some '-' := by
  decide

/-! ### Path model

A filesystem path in resolved, normalized absolute form is modelled as the
list of its components (`[]` is the root `/`); `renderAbs` gives the
character-list form that `resolve`/`normalize` produce for it.  A
normalized component is nonempty and contains no separator character,
which is exactly what normalization guarantees. -/

/-- A path in resolved, normalized absolute form: its components. -/
abbrev PathC := List (List Char)

/-- The POSIX path separator. -/
def sepChar : Char := '/'

/-- Components joined by the separator. -/
def renderComps : PathC → List Char
  | [] => []
  | [c] => c
  | c :: c2 :: cs => c ++ sepChar :: renderComps (c2 :: cs)

/-- The rendered absolute path: the separator followed by the joined
components (so `[]` renders as the root `/`). -/
def renderAbs (p : PathC) : List Char := sepChar :: renderComps p

/-- A normalized path component: nonempty, no separator inside. -/
def ValidComp (c : List Char) : Prop := c ≠ [] ∧ sepChar ∉ c

/-- All components normalized. -/
def ValidPath (p : PathC) : Prop := ∀ c ∈ p, ValidComp c

instance (c : List Char) : Decidable (ValidComp c) :=
  decidable_of_iff (c ≠ [] ∧ sepChar ∉ c) (by rw [ValidComp])

instance (p : PathC) : Decidable (ValidPath p) :=
  decidable_of_iff (∀ c ∈ p, ValidComp c) (by rw [ValidPath])

/-- `isPathSafe` from the installer.  Both arguments are paths already in
resolved normalized form (the source applies `normalize(resolve(...))` to
each first); the check is the source's string test
`target.startsWith(base + sep) || target === base`, here performed on the
rendered character lists. -/
def isPathSafe (basePath targetPath : PathC) : Bool :=
  (renderAbs basePath ++ [sepChar]).isPrefixOf (renderAbs targetPath) ||
    renderAbs targetPath == renderAbs basePath

theorem sep_split_eq : ∀ (c d x y : List Char), sepChar ∉ c → sepChar ∉ d →
    c ++ sepChar :: x = d ++ sepChar :: y → c = d ∧ x = y
  | [], [], x, y, _, _, h => ⟨rfl, by simpa using h⟩
  | [], b :: bs, x, y, _, hd, h => by
    rw [List.nil_append, List.cons_append] at h
    injection h with h1 _
    exact absurd (h1 ▸ List.mem_cons_self b bs) hd
  | a :: as, [], x, y, hc, _, h => by
    rw [List.cons_append, List.nil_append] at h
    injection h with h1 _
    exact absurd (h1.symm ▸ List.mem_cons_self a as) hc
  | a :: as, b :: bs, x, y, hc, hd, h => by
    rw [List.cons_append, List.cons_append] at h
    injection h with h1 h2
    obtain ⟨h3, h4⟩ := sep_split_eq as bs x y
      (fun hm => hc (List.mem_cons_of_mem _ hm))
      (fun hm => hd (List.mem_cons_of_mem _ hm)) h2
    exact ⟨by rw [h1, h3], h4⟩

theorem sep_split_pre : ∀ (c d x y : List Char), sepChar ∉ c → sepChar ∉ d →
    (c ++ sepChar :: x) <+: (d ++ sepChar :: y) → c = d ∧ x <+: y
  | [], [], x, y, _, _, h => by
    rw [List.nil_append, List.nil_append, List.cons_prefix_cons] at h
    exact ⟨rfl, h.2⟩
  | [], b :: bs, x, y, _, hd, h => by
    rw [List.nil_append, List.cons_append, List.cons_prefix_cons] at h
    exact absurd (h.1 ▸ List.mem_cons_self b bs) hd
  | a :: as, [], x, y, hc, _, h => by
    rw [List.cons_append, List.nil_append, List.cons_prefix_cons] at h
    exact absurd (h.1.symm ▸ List.mem_cons_self a as) hc
  | a :: as, b :: bs, x, y, hc, hd, h => by
    rw [List.cons_append, List.cons_append, List.cons_prefix_cons] at h
    obtain ⟨h3, h4⟩ := sep_split_pre as bs x y
      (fun hm => hc (List.mem_cons_of_mem _ hm))
      (fun hm => hd (List.mem_cons_of_mem _ hm)) h.2
    exact ⟨by rw [h.1, h3], h4⟩

theorem renderComps_inj : ∀ (p q : PathC), ValidPath p → ValidPath q →
    renderComps p = renderComps q → p = q
  | [], [], _, _, _ => rfl
  | [], [d], _, hq, h => by
    exact absurd (by simpa [renderComps] using h.symm) (hq d (List.mem_cons_self _ _)).1
  | [], d :: d2 :: ds, _, _, h => by
    rw [show renderComps ([] : PathC) = [] from rfl] at h
    simp [renderComps] at h
  | [c], [], hp, _, h => by
    exact absurd (by simpa [renderComps] using h) (hp c (List.mem_cons_self _ _)).1
  | c :: c2 :: cs, [], _, _, h => by
    rw [show renderComps ([] : PathC) = [] from rfl] at h
    simp [renderComps] at h
  | [c], [d], _, _, h => by
    rw [show renderComps [c] = c from rfl, show renderComps [d] = d from rfl] at h
    rw [h]
  | [c], d :: d2 :: ds, hp, _, h => by
    exfalso
    rw [show renderComps [c] = c from rfl] at h
    have : sepChar ∈ c := by
      rw [h, renderComps]
      exact List.mem_append_right _ (List.mem_cons_self _ _)
    exact (hp c (List.mem_cons_self _ _)).2 this
  | c :: c2 :: cs, [d], _, hq, h => by
    exfalso
    rw [show renderComps [d] = d from rfl] at h
    have : sepChar ∈ d := by
      rw [← h, renderComps]
      exact List.mem_append_right _ (List.mem_cons_self _ _)
    exact (hq d (List.mem_cons_self _ _)).2 this
  | c :: c2 :: cs, d :: d2 :: ds, hp, hq, h => by
    rw [renderComps, renderComps] at h
    obtain ⟨h1, h2⟩ := sep_split_eq c d _ _
      (hp c (List.mem_cons_self _ _)).2 (hq d (List.mem_cons_self _ _)).2 h
    have h3 := renderComps_inj (c2 :: cs) (d2 :: ds)
      (fun e he => hp e (List.mem_cons_of_mem _ he))
      (fun e he => hq e (List.mem_cons_of_mem _ he)) h2
    rw [h1, h3]

theorem renderComps_append : ∀ (b r : PathC), b ≠ [] → r ≠ [] →
    renderComps (b ++ r) = renderComps b ++ sepChar :: renderComps r
  | [], _, hb, _ => absurd rfl hb
  | [c], [], _, hr => absurd rfl hr
  | [c], d :: rs, _, _ => by
    simp [renderComps]
  | c :: c2 :: cs, r, _, hr => by
    have ih := renderComps_append (c2 :: cs) r (by simp) hr
    simp only [List.cons_append] at ih ⊢
    simp only [renderComps]
    rw [ih]
    simp [List.append_assoc]

theorem renderPre_of_extend (b r : PathC) (hb : b ≠ []) (hr : r ≠ []) :
    (renderAbs b ++ [sepChar]) <+: renderAbs (b ++ r) := by
  rw [renderAbs, renderAbs, renderComps_append b r hb hr, List.cons_append,
    List.cons_prefix_cons]
  refine ⟨rfl, renderComps r, ?_⟩
  simp

theorem renderPre_imp : ∀ (b t : PathC), ValidPath b → ValidPath t →
    ((renderComps b ++ [sepChar]) <+: renderComps t) → b ≠ [] ∧ b ≠ t ∧ b <+: t
  | [], [], _, _, h => by simp [renderComps] at h
  | [], [d], _, ht, h => by
    exfalso
    rw [show renderComps ([] : PathC) = [] from rfl, List.nil_append,
      show renderComps [d] = d from rfl] at h
    exact (ht d (List.mem_cons_self _ _)).2
      (h.subset (List.mem_cons_self _ _))
  | [], d :: d2 :: ds, _, ht, h => by
    exfalso
    rw [show renderComps ([] : PathC) = [] from rfl, List.nil_append, renderComps] at h
    obtain ⟨s, hs⟩ := h
    have hd := ht d (List.mem_cons_self _ _)
    cases hdc : d with
    | nil => exact hd.1 hdc
    | cons a as =>
      rw [hdc, List.cons_append] at hs
      injection hs with h1 _
      exact hd.2 (by rw [hdc, ← h1]; exact List.mem_cons_self _ _)
  | b0 :: bs, [], _, _, h => by
    rw [show renderComps ([] : PathC) = [] from rfl] at h
    simp at h
  | [b0], [d], hb, ht, h => by
    exfalso
    rw [show renderComps [b0] = b0 from rfl, show renderComps [d] = d from rfl] at h
    exact (ht d (List.mem_cons_self _ _)).2
      (h.subset (List.mem_append_right _ (List.mem_cons_self _ _)))
  | [b0], d :: d2 :: ds, hb, ht, h => by
    rw [show renderComps [b0] = b0 from rfl, renderComps] at h
    obtain ⟨h1, _⟩ := sep_split_pre b0 d [] _
      (hb b0 (List.mem_cons_self _ _)).2 (ht d (List.mem_cons_self _ _)).2
      (by simpa using h)
    subst h1
    exact ⟨by simp, by simp, ⟨d2 :: ds, rfl⟩⟩
  | b0 :: b2 :: bs, [d], hb, ht, h => by
    exfalso
    rw [show renderComps [d] = d from rfl, renderComps] at h
    exact (ht d (List.mem_cons_self _ _)).2
      (h.subset (List.mem_append_right _ (List.mem_cons_self _ _)))
  | b0 :: b2 :: bs, d :: d2 :: ds, hb, ht, h => by
    rw [renderComps, renderComps] at h
    obtain ⟨h1, h2⟩ := sep_split_pre b0 d (renderComps (b2 :: bs) ++ [sepChar])
      (renderComps (d2 :: ds))
      (hb b0 (List.mem_cons_self _ _)).2 (ht d (List.mem_cons_self _ _)).2
      (by rw [List.append_assoc, List.cons_append] at h; exact h)
    obtain ⟨_, hne2, hpre⟩ := renderPre_imp (b2 :: bs) (d2 :: ds)
      (fun e he => hb e (List.mem_cons_of_mem _ he))
      (fun e he => ht e (List.mem_cons_of_mem _ he)) h2
    subst h1
    refine ⟨by simp, ?_, List.cons_prefix_cons.mpr ⟨rfl, hpre⟩⟩
    intro heq
    injection heq with _ h3
    exact hne2 h3

/-- Characterization of isPathSafe on normalized paths: the string check
passes exactly when the target equals the base or strictly extends it by
whole components, and the base is not the root. -/
theorem isPathSafe_iff (b t : PathC) (hb : ValidPath b) (ht : ValidPath t) :
    isPathSafe b t = true ↔ t = b ∨ (b ≠ [] ∧ b ≠ t ∧ b <+: t) := by
  rw [isPathSafe, Bool.or_eq_true, List.isPrefixOf_iff_prefix, beq_iff_eq]
  constructor
  · rintro (h | h)
    · rw [renderAbs, renderAbs, List.cons_append, List.cons_prefix_cons] at h
      exact Or.inr (renderPre_imp b t hb ht h.2)
    · rw [renderAbs, renderAbs] at h
      injection h with _ h2
      exact Or.inl (renderComps_inj t b ht hb h2)
  · rintro (rfl | ⟨hne, hne2, hpre⟩)
    · exact Or.inr rfl
    · left
      obtain ⟨r, rfl⟩ := hpre
      have hr : r ≠ [] := by
        rintro rfl
        simp at hne2
      exact renderPre_of_extend b r hne hr

/-- Appending one normalized component to a nonempty normalized base is
always accepted by isPathSafe. -/
theorem isPathSafe_append_single (b : PathC) (n : List Char)
    (hb : ValidPath b) (hbne : b ≠ []) (hn : ValidComp n) :
    isPathSafe b (b ++ [n]) = true := by
  have hv : ValidPath (b ++ [n]) := by
    intro c hc
    rcases List.mem_append.mp hc with h | h
    · exact hb c h
    · rw [List.mem_singleton] at h
      exact h ▸ hn
  exact (isPathSafe_iff b (b ++ [n]) hb hv).mpr
    (Or.inr ⟨hbne, by simp, ⟨[n], rfl⟩⟩)

/-- C5 (corrected): after resolving both inputs to absolute normalized
form, isPathSafe returns true iff the candidate equals the base or the
candidate extends the base by at least one whole component with the base
not being the filesystem root; consequently it is true for the base itself
and for every descendant of a non-root base, and false whenever the
candidate is not below the base — in particular for every sibling
(including ones whose name begins with the base's last component) and
every ancestor of the base.  For the root base, descendants are rejected,
since the check compares against base + separator, i.e. `//`. -/
theorem C5_isPathSafe_characterization (b t : PathC)
    (hb : ValidPath b) (ht : ValidPath t) :
    (isPathSafe b t = true ↔ t = b ∨ (b ≠ [] ∧ b ≠ t ∧ b <+: t)) ∧
    isPathSafe b b = true ∧
    (¬ b <+: t → t ≠ b → isPathSafe b t = false) ∧
    (t <+: b → t ≠ b → isPathSafe b t = false) := by
  have hiff := isPathSafe_iff b t hb ht
  refine ⟨hiff, (isPathSafe_iff b b hb hb).mpr (Or.inl rfl), ?_, ?_⟩
  · intro hnp hnt
    cases hps : isPathSafe b t
    · rfl
    · rcases hiff.mp hps with h | ⟨_, _, h⟩
      · exact absurd h hnt
      · exact absurd h hnp
  · intro hanc hnt
    cases hps : isPathSafe b t
    · rfl
    · rcases hiff.mp hps with h | ⟨_, _, h⟩
      · exact absurd h hnt
      · exact absurd (h.eq_of_length (h.length_le.antisymm hanc.length_le)).symm hnt

/-- C5 counterexample: with the base being the filesystem root `/`, the
path `/a` is a strict descendant of the base, yet isPathSafe rejects it:
the source compares the target against base + separator, which for the
root is `//`. -/
theorem C5_isPathSafe_characterization_cex :
    isPathSafe [] [['a']] = false ∧ ([] : PathC) <+: [['a']] ∧
      ([] : PathC) ≠ [['a']] :=
  ⟨by decide, ⟨[['a']], rfl⟩, by decide⟩

/-- Witness for C5 at concrete paths: `/a/b/c` is inside `/a/b`, the
sibling `/a/bc` is not. -/
theorem C5_isPathSafe_characterization_witness :
    isPathSafe [['a'], ['b']] [['a'], ['b'], ['c']] = true ∧
    isPathSafe [['a'], ['b']] [['a'], ['b', 'c']] = false :=
  ⟨(C5_isPathSafe_characterization [['a'], ['b']] [['a'], ['b'], ['c']]
      (by decide) (by decide)).1.mpr
      (Or.inr ⟨by decide, by decide, ⟨[['c']], rfl⟩⟩),
    (C5_isPathSafe_characterization [['a'], ['b']] [['a'], ['b', 'c']]
      (by decide) (by decide)).2.2.1 (by decide) (by decide)⟩

/-! ### Relative joins and the well-known skill file-map writer -/

/-- Split a character list into segments at each separator, as Node's path
handling does for a relative path string. -/
def splitSeg : List Char → List (List Char)
  | [] => [[]]
  | c :: cs =>
    if c = sepChar then [] :: splitSeg cs
    else
      match splitSeg cs with
      | [] => [[c]]
      | s :: ss => (c :: s) :: ss

theorem splitSeg_no_sep : ∀ (l : List Char) (s : List Char),
    s ∈ splitSeg l → sepChar ∉ s
  | [], s, hs => by
    simp only [splitSeg, List.mem_singleton] at hs
    subst hs
    simp
  | c :: cs, s, hs => by
    simp only [splitSeg] at hs
    split at hs
    · rcases List.mem_cons.mp hs with rfl | hs
      · simp
      · exact splitSeg_no_sep cs s hs
    · next hc =>
      cases hsc : splitSeg cs with
      | nil =>
        rw [hsc] at hs
        simp only [List.mem_singleton] at hs
        subst hs
        intro hm
        rw [List.mem_singleton] at hm
        exact hc hm.symm
      | cons t ts =>
        rw [hsc] at hs
        rcases List.mem_cons.mp hs with rfl | hs
        · intro hm
          rcases List.mem_cons.mp hm with heq | hm
          · exact hc heq.symm
          · exact splitSeg_no_sep cs t
              (by rw [hsc]; exact List.mem_cons_self _ _) hm
        · exact splitSeg_no_sep cs s
            (by rw [hsc]; exact List.mem_cons_of_mem _ hs)

/-- Node path normalization of an absolute base extended by relative
segments: empty segments and `.` are dropped, `..` removes the last
component (at the root it is dropped), any other segment is appended. -/
def applySegs : PathC → List (List Char) → PathC
  | stack, [] => stack
  | stack, s :: rest =>
    if s = [] ∨ s = ['.'] then applySegs stack rest
    else if s = ['.', '.'] then applySegs stack.dropLast rest
    else applySegs (stack ++ [s]) rest

/-- `normalize(resolve(join(base, rel)))` for an already-normalized
absolute base and a relative path string. -/
def joinPath (base : PathC) (rel : List Char) : PathC :=
  applySegs base (splitSeg rel)

theorem validPath_applySegs : ∀ (segs : List (List Char)) (stack : PathC),
    ValidPath stack → (∀ s ∈ segs, sepChar ∉ s) → ValidPath (applySegs stack segs)
  | [], stack, hv, _ => hv
  | s :: rest, stack, hv, hs => by
    simp only [applySegs]
    split
    · exact validPath_applySegs rest stack hv
        (fun x hx => hs x (List.mem_cons_of_mem _ hx))
    · split
      · exact validPath_applySegs rest stack.dropLast
          (fun c hc => hv c ((List.dropLast_sublist stack).subset hc))
          (fun x hx => hs x (List.mem_cons_of_mem _ hx))
      · next hne hdd =>
        refine validPath_applySegs rest (stack ++ [s]) ?_
          (fun x hx => hs x (List.mem_cons_of_mem _ hx))
        intro c hc
        rcases List.mem_append.mp hc with h | h
        · exact hv c h
        · rw [List.mem_singleton] at h
          subst h
          exact ⟨fun hnil => hne (Or.inl hnil), hs c (List.mem_cons_self _ _)⟩

theorem validPath_joinPath (b : PathC) (rel : List Char) (hb : ValidPath b) :
    ValidPath (joinPath b rel) :=
  validPath_applySegs (splitSeg rel) b hb (splitSeg_no_sep rel)

/-- The `writeSkillFiles` loop of installWellKnownSkillForAgent: each
entry's full path is `join(targetDir, filePath)`; an entry failing the
isPathSafe containment check is skipped (`continue`), every other entry is
written.  The result is the list of (path, content) writes performed, in
order. -/
def writeSkillFiles (targetDir : PathC) :
    List (List Char × List Char) → List (PathC × List Char)
  | [] => []
  | (fp, content) :: rest =>
    if isPathSafe targetDir (joinPath targetDir fp) then
      (joinPath targetDir fp, content) :: writeSkillFiles targetDir rest
    else
      writeSkillFiles targetDir rest

/-- C7 (confirmed): when installing a well-known skill from an in-memory
file map, exactly the entries whose joined path fails the containment
check are skipped and all others are written (so a skipped entry never
aborts the remaining entries), and every written path is the target
directory or a strict descendant of it — never outside it. -/
theorem C7_writeSkillFiles_contained (targetDir : PathC)
    (files : List (List Char × List Char)) (hv : ValidPath targetDir) :
    writeSkillFiles targetDir files =
      files.filterMap (fun e =>
        if isPathSafe targetDir (joinPath targetDir e.1) then
          some (joinPath targetDir e.1, e.2)
        else none) ∧
    ∀ p c, (p, c) ∈ writeSkillFiles targetDir files →
      p = targetDir ∨ targetDir <+: p := by
  constructor
  · induction files with
    | nil => rfl
    | cons e rest ih =>
      obtain ⟨fp, content⟩ := e
      simp only [writeSkillFiles, List.filterMap_cons]
      split
      · rw [ih]
      · rw [ih]
  · intro p c hmem
    induction files with
    | nil => simp [writeSkillFiles] at hmem
    | cons e rest ih =>
      obtain ⟨fp, content⟩ := e
      simp only [writeSkillFiles] at hmem
      split at hmem
      · next hsafe =>
        rcases List.mem_cons.mp hmem with heq | hmem
        · have hp : p = joinPath targetDir fp := congrArg Prod.fst heq
          subst hp
          rcases (isPathSafe_iff targetDir (joinPath targetDir fp) hv
              (validPath_joinPath targetDir fp hv)).mp hsafe with h | ⟨_, _, h⟩
          · exact Or.inl h
          · exact Or.inr h
        · exact ih hmem
      · exact ih hmem

/-- Witness for C7 at a concrete file map: an entry whose relative path is
`..` escapes the target directory and is skipped, while the following
entry is still written, inside the target. -/
theorem C7_writeSkillFiles_contained_witness :
    writeSkillFiles [['t']] [(['.', '.'], ['y']), (['a'], ['x'])] =
      [([['t'], ['a']], ['x'])] ∧
    ([['t'], ['a']] = [['t']] ∨ [['t']] <+: [['t'], ['a']]) :=
  ⟨(C7_writeSkillFiles_contained [['t']] [(['.', '.'], ['y']), (['a'], ['x'])]
      (by decide)).1.trans (by decide),
    (C7_writeSkillFiles_contained [['t']] [(['.', '.'], ['y']), (['a'], ['x'])]
      (by decide)).2 [['t'], ['a']] ['x'] (by decide)⟩

/-! ### The install engine (installSkillForAgent, installRemoteSkillForAgent)

The filesystem effects of one install call are modelled by an outcome
oracle `FsEnv` giving, in program order, the result of each effectful call
(`none` = the call succeeds, `some msg` = the call throws with message
`msg`; `createSymlink` never throws — it catches internally — and returns
a Bool), together with an `FsState` recording the artifacts the call
created. -/

/-- The install mode requested by the caller ('symlink' | 'copy'). -/
inductive InstallMode where
  | symlink
  | copy
deriving DecidableEq

/-- The InstallResult record returned per (skill, target) pair. -/
structure InstallResult where
  success : Bool
  path : PathC
  canonicalPath : Option PathC := none
  mode : InstallMode
  symlinkFailed : Bool := false
  error : Option (List Char) := none
deriving DecidableEq

/-- A consumer view created at an agent path: either a symlink to the
canonical directory or an independent copy of the content. -/
inductive ViewKind where
  | link (target : PathC)
  | copied
deriving DecidableEq

/-- The artifacts created by one install call: canonical directories
ensured (and then filled) and consumer views created. -/
structure FsState where
  canonicalDirs : List PathC := []
  consumerViews : List (PathC × ViewKind) := []
deriving DecidableEq

/-- Outcome oracle for the effectful filesystem calls of one install call,
in program order. -/
structure FsEnv where
  ensureCanonical : Option (List Char) := none
  materializeCanonical : Option (List Char) := none
  symlinkOk : Bool := true
  mkdirAgent : Option (List Char) := none
  materializeAgent : Option (List Char) := none
deriving DecidableEq

/-- A validated local Skill descriptor (name, source directory path). -/
structure SkillM where
  name : List Char
  path : List Char

/-- A remote skill: display name, markdown content, install identifier. -/
structure RemoteSkillM where
  name : List Char
  content : List Char
  installName : List Char

/-- An agent's configuration: project-relative skills directory and
absolute global skills directory. -/
structure AgentM where
  skillsDir : List (List Char)
  globalSkillsDir : PathC

/-- Options of one install call (`global`, `cwd`, `mode`). -/
structure InstallOpts where
  globalInstall : Bool := false
  cwd : PathC
  mode : InstallMode := InstallMode.symlink

/-- `path.basename`: the last nonempty separator-delimited segment
(trailing separators ignored), or empty for the empty path. -/
def basenameStr (s : List Char) : List Char :=
  ((splitSeg s).filter (· ≠ [])).getLastD []

def agentsComp : List Char := ".agents".toList

def skillsComp : List Char := "skills".toList

/-- getCanonicalSkillsDir: `<homedir or cwd>/.agents/skills`. -/
def getCanonicalSkillsDir (globalScope : Bool) (home cwd : PathC) : PathC :=
  (if globalScope then home else cwd) ++ [agentsComp, skillsComp]

/-- The path-traversal rejection message of the installer. -/
def travMsg : List Char :=
  "Invalid skill name: potential path traversal detected".toList

/-- `skill.name || basename(skill.path)` (empty string is falsy). -/
def rawNameOf (skill : SkillM) : List Char :=
  if skill.name = [] then basenameStr skill.path else skill.name

def skillNameOf (skill : SkillM) : List Char := sanitizeName (rawNameOf skill)

def canonicalBaseOf (opts : InstallOpts) (home : PathC) : PathC :=
  getCanonicalSkillsDir opts.globalInstall home opts.cwd

def canonicalDirOf (skill : SkillM) (opts : InstallOpts) (home : PathC) : PathC :=
  canonicalBaseOf opts home ++ [skillNameOf skill]

def agentBaseOf (agent : AgentM) (opts : InstallOpts) : PathC :=
  if opts.globalInstall then agent.globalSkillsDir else opts.cwd ++ agent.skillsDir

def agentDirOf (skill : SkillM) (agent : AgentM) (opts : InstallOpts) : PathC :=
  agentBaseOf agent opts ++ [skillNameOf skill]

/-- installSkillForAgent: sanitize the name, compute the canonical and
agent directories, validate both with isPathSafe, then install.  Copy
mode: create the agent directory and copy the skill source into it,
skipping the canonical store.  Symlink mode: ensure and fill the canonical
directory, attempt the symlink; on symlink failure remove the agent path
and fall back to an independent copy there, reporting
`mode = symlink, symlinkFailed = true`.  Every throwing call is caught
and surfaced as `success = false` with the error message. -/
def installSkillForAgent (skill : SkillM) (agent : AgentM)
    (opts : InstallOpts) (home : PathC) (env : FsEnv) :
    InstallResult × FsState :=
  let canonicalDir := canonicalDirOf skill opts home
  let agentDir := agentDirOf skill agent opts
  if isPathSafe (canonicalBaseOf opts home) canonicalDir = false then
    ({ success := false, path := agentDir, mode := opts.mode,
       error := some travMsg }, {})
  else if isPathSafe (agentBaseOf agent opts) agentDir = false then
    ({ success := false, path := agentDir, mode := opts.mode,
       error := some travMsg }, {})
  else
    match opts.mode with
    | InstallMode.copy =>
      match env.mkdirAgent with
      | some m =>
        ({ success := false, path := agentDir,
           mode := InstallMode.copy, error := some m }, {})
      | none =>
        match env.materializeAgent with
        | some m =>
          ({ success := false, path := agentDir,
             mode := InstallMode.copy, error := some m },
           { consumerViews := [(agentDir, ViewKind.copied)] })
        | none =>
          ({ success := true, path := agentDir,
             mode := InstallMode.copy },
           { consumerViews := [(agentDir, ViewKind.copied)] })
    | InstallMode.symlink =>
      match env.ensureCanonical with
      | some m =>
        ({ success := false, path := agentDir,
           mode := InstallMode.symlink, error := some m }, {})
      | none =>
        match env.materializeCanonical with
        | some m =>
          ({ success := false, path := agentDir,
             mode := InstallMode.symlink, error := some m },
           { canonicalDirs := [canonicalDir] })
        | none =>
          if env.symlinkOk then
            ({ success := true, path := agentDir,
               canonicalPath := some canonicalDir,
               mode := InstallMode.symlink },
             { canonicalDirs := [canonicalDir],
               consumerViews := [(agentDir, ViewKind.link canonicalDir)] })
          else
            match env.mkdirAgent with
            | some m =>
              ({ success := false, path := agentDir,
                 mode := InstallMode.symlink, error := some m },
               { canonicalDirs := [canonicalDir] })
            | none =>
              match env.materializeAgent with
              | some m =>
                ({ success := false, path := agentDir,
                   mode := InstallMode.symlink, error := some m },
                 { canonicalDirs := [canonicalDir],
                   consumerViews := [(agentDir, ViewKind.copied)] })
              | none =>
                ({ success := true, path := agentDir,
                   canonicalPath := some canonicalDir,
                   mode := InstallMode.symlink, symlinkFailed := true },
                 { canonicalDirs := [canonicalDir],
                   consumerViews := [(agentDir, ViewKind.copied)] })

def canonicalDirRemoteOf (skill : RemoteSkillM) (opts : InstallOpts)
    (home : PathC) : PathC :=
  canonicalBaseOf opts home ++ [sanitizeName skill.installName]

def agentDirRemoteOf (skill : RemoteSkillM) (agent : AgentM)
    (opts : InstallOpts) : PathC :=
  agentBaseOf agent opts ++ [sanitizeName skill.installName]

/-- installRemoteSkillForAgent: identical control flow to
installSkillForAgent, except the directory name comes from
`skill.installName` and the content step writes `SKILL.md` instead of
copying a directory. -/
def installRemoteSkillForAgent (skill : RemoteSkillM) (agent : AgentM)
    (opts : InstallOpts) (home : PathC) (env : FsEnv) :
    InstallResult × FsState :=
  let canonicalDir := canonicalDirRemoteOf skill opts home
  let agentDir := agentDirRemoteOf skill agent opts
  if isPathSafe (canonicalBaseOf opts home) canonicalDir = false then
    ({ success := false, path := agentDir, mode := opts.mode,
       error := some travMsg }, {})
  else if isPathSafe (agentBaseOf agent opts) agentDir = false then
    ({ success := false, path := agentDir, mode := opts.mode,
       error := some travMsg }, {})
  else
    match opts.mode with
    | InstallMode.copy =>
      match env.mkdirAgent with
      | some m =>
        ({ success := false, path := agentDir,
           mode := InstallMode.copy, error := some m }, {})
      | none =>
        match env.materializeAgent with
        | some m =>
          ({ success := false, path := agentDir,
             mode := InstallMode.copy, error := some m },
           { consumerViews := [(agentDir, ViewKind.copied)] })
        | none =>
          ({ success := true, path := agentDir,
             mode := InstallMode.copy },
           { consumerViews := [(agentDir, ViewKind.copied)] })
    | InstallMode.symlink =>
      match env.ensureCanonical with
      | some m =>
        ({ success := false, path := agentDir,
           mode := InstallMode.symlink, error := some m }, {})
      | none =>
        match env.materializeCanonical with
        | some m =>
          ({ success := false, path := agentDir,
             mode := InstallMode.symlink, error := some m },
           { canonicalDirs := [canonicalDir] })
        | none =>
          if env.symlinkOk then
            ({ success := true, path := agentDir,
               canonicalPath := some canonicalDir,
               mode := InstallMode.symlink },
             { canonicalDirs := [canonicalDir],
               consumerViews := [(agentDir, ViewKind.link canonicalDir)] })
          else
            match env.mkdirAgent with
            | some m =>
              ({ success := false, path := agentDir,
                 mode := InstallMode.symlink, error := some m },
               { canonicalDirs := [canonicalDir] })
            | none =>
              match env.materializeAgent with
              | some m =>
                ({ success := false, path := agentDir,
                   mode := InstallMode.symlink, error := some m },
                 { canonicalDirs := [canonicalDir],
                   consumerViews := [(agentDir, ViewKind.copied)] })
              | none =>
                ({ success := true, path := agentDir,
                   canonicalPath := some canonicalDir,
                   mode := InstallMode.symlink, symlinkFailed := true },
                 { canonicalDirs := [canonicalDir],
                   consumerViews := [(agentDir, ViewKind.copied)] })

/-- The install loop of runAdd: one sequential installSkillForAgent call
per (skill, target agent) pair, collecting every result. -/
def runAddResults (skills : List SkillM) (targetAgents : List AgentM)
    (opts : InstallOpts) (home : PathC)
    (envOf : SkillM → AgentM → FsEnv) : List InstallResult :=
  skills.flatMap (fun sk => targetAgents.map (fun ag =>
    (installSkillForAgent sk ag opts home (envOf sk ag)).1))

/-! ### Validity of the computed install paths -/

theorem sep_not_mem_sanitizeName (s : List Char) : sepChar ∉ sanitizeName s := by
  intro hm
  rcases charset_sanitizeName s sepChar hm with h | h
  · exact absurd h (by decide)
  · exact absurd h (by decide)

theorem validComp_sanitizeName (s : List Char) : ValidComp (sanitizeName s) :=
  ⟨sanitizeName_ne_nil s, sep_not_mem_sanitizeName s⟩

/-- Setup facts provided by the configuration: the scope roots and agent
directories are normalized and non-root. -/
def ValidSetup (agent : AgentM) (opts : InstallOpts) (home : PathC) : Prop :=
  ValidPath home ∧ ValidPath opts.cwd ∧ ValidPath agent.globalSkillsDir ∧
    ValidPath agent.skillsDir ∧ agent.globalSkillsDir ≠ [] ∧ agent.skillsDir ≠ []

theorem canonicalBase_valid (opts : InstallOpts) (home : PathC)
    (h1 : ValidPath home) (h2 : ValidPath opts.cwd) :
    ValidPath (canonicalBaseOf opts home) ∧ canonicalBaseOf opts home ≠ [] := by
  constructor
  · intro c hc
    rw [canonicalBaseOf, getCanonicalSkillsDir] at hc
    rcases List.mem_append.mp hc with h | h
    · split at h
      · exact h1 c h
      · exact h2 c h
    · rcases List.mem_cons.mp h with rfl | h
      · exact (by decide : ValidComp agentsComp)
      · rw [List.mem_singleton] at h
        exact h ▸ (by decide : ValidComp skillsComp)
  · rw [canonicalBaseOf, getCanonicalSkillsDir]
    simp

theorem agentBase_valid (agent : AgentM) (opts : InstallOpts) (home : PathC)
    (hs : ValidSetup agent opts home) :
    ValidPath (agentBaseOf agent opts) ∧ agentBaseOf agent opts ≠ [] := by
  obtain ⟨h1, h2, h3, h4, h5, h6⟩ := hs
  rw [agentBaseOf]
  split
  · exact ⟨h3, h5⟩
  · constructor
    · intro c hc
      rcases List.mem_append.mp hc with h | h
      · exact h2 c h
      · exact h4 c h
    · intro hnil
      exact h6 (List.append_eq_nil.mp hnil).2

theorem install_checks_pass (n : List Char) (agent : AgentM)
    (opts : InstallOpts) (home : PathC) (hn : ValidComp n)
    (hs : ValidSetup agent opts home) :
    isPathSafe (canonicalBaseOf opts home) (canonicalBaseOf opts home ++ [n]) = true ∧
    isPathSafe (agentBaseOf agent opts) (agentBaseOf agent opts ++ [n]) = true := by
  obtain ⟨hcv, hcn⟩ := canonicalBase_valid opts home hs.1 hs.2.1
  obtain ⟨hav, han⟩ := agentBase_valid agent opts home hs
  exact ⟨isPathSafe_append_single _ n hcv hcn hn,
    isPathSafe_append_single _ n hav han hn⟩

/-- C6 (confirmed): installSkillForAgent never throws — it is a total
function of its outcome oracle, and every run either succeeds or fails
with the error message set; the runAdd batch loop over all (skill, target)
pairs produces exactly one result per pair no matter which filesystem
operations fail, so a failing pair never aborts the remaining pairs. -/
theorem C6_installSkill_never_throws :
    (∀ (skill : SkillM) (agent : AgentM) (opts : InstallOpts) (home : PathC)
        (env : FsEnv),
      (installSkillForAgent skill agent opts home env).1.success = true ∨
        ((installSkillForAgent skill agent opts home env).1.success = false ∧
          (installSkillForAgent skill agent opts home env).1.error.isSome = true)) ∧
    (∀ (skills : List SkillM) (targetAgents : List AgentM) (opts : InstallOpts)
        (home : PathC) (envOf : SkillM → AgentM → FsEnv),
      (runAddResults skills targetAgents opts home envOf).length =
        skills.length * targetAgents.length) := by
  constructor
  · intro skill agent opts home env
    simp only [installSkillForAgent]
    repeat' split
    all_goals first
      | (left; rfl)
      | (right; exact ⟨rfl, rfl⟩)
  · intro skills targetAgents opts home envOf
    rw [runAddResults]
    induction skills with
    | nil => simp
    | cons sk rest ih =>
      simp only [List.flatMap_cons, List.length_append, List.length_map, ih,
        List.length_cons, Nat.succ_mul]
      exact Nat.add_comm _ _

/-- The created-artifact state of a symlink-mode install: whenever a
consumer view was created, the canonical directory was ensured and filled
by the same call, earlier in program order. -/
theorem installSkill_views_canonical (skill : SkillM) (agent : AgentM)
    (opts : InstallOpts) (home : PathC) (env : FsEnv)
    (hm : opts.mode = InstallMode.symlink)
    (hne : (installSkillForAgent skill agent opts home env).2.consumerViews ≠ []) :
    (installSkillForAgent skill agent opts home env).2.canonicalDirs =
      [canonicalDirOf skill opts home] := by
  cases hc1 : isPathSafe (canonicalBaseOf opts home) (canonicalDirOf skill opts home) <;>
    cases hc2 : isPathSafe (agentBaseOf agent opts) (agentDirOf skill agent opts) <;>
    cases he1 : env.ensureCanonical <;>
    cases he2 : env.materializeCanonical <;>
    cases hsy : env.symlinkOk <;>
    cases hm1 : env.mkdirAgent <;>
    cases hm2 : env.materializeAgent <;>
    simp [installSkillForAgent, hm, hc1, hc2, he1, he2, hsy, hm1, hm2] at hne ⊢

theorem installRemote_views_canonical (skill : RemoteSkillM) (agent : AgentM)
    (opts : InstallOpts) (home : PathC) (env : FsEnv)
    (hm : opts.mode = InstallMode.symlink)
    (hne : (installRemoteSkillForAgent skill agent opts home env).2.consumerViews ≠ []) :
    (installRemoteSkillForAgent skill agent opts home env).2.canonicalDirs =
      [canonicalDirRemoteOf skill opts home] := by
  cases hc1 : isPathSafe (canonicalBaseOf opts home) (canonicalDirRemoteOf skill opts home) <;>
    cases hc2 : isPathSafe (agentBaseOf agent opts) (agentDirRemoteOf skill agent opts) <;>
    cases he1 : env.ensureCanonical <;>
    cases he2 : env.materializeCanonical <;>
    cases hsy : env.symlinkOk <;>
    cases hm1 : env.mkdirAgent <;>
    cases hm2 : env.materializeAgent <;>
    simp [installRemoteSkillForAgent, hm, hc1, hc2, he1, he2, hsy, hm1, hm2] at hne ⊢

/-- C4 (corrected): in symlink mode — whether the projection succeeds as a
link or falls back to a copy — a consumer view is only ever created by a
call that has already ensured and filled the corresponding canonical
entry under `<scopeRoot>/.agents/skills/`; this holds for local and for
remote installs.  In explicit copy mode the skill is copied directly to
the agent path and no canonical entry is created. -/
theorem C4_consumer_view_requires_canonical :
    (∀ (skill : SkillM) (agent : AgentM) (opts : InstallOpts) (home : PathC)
        (env : FsEnv), opts.mode = InstallMode.symlink →
      ∀ v ∈ (installSkillForAgent skill agent opts home env).2.consumerViews,
        canonicalDirOf skill opts home ∈
          (installSkillForAgent skill agent opts home env).2.canonicalDirs) ∧
    (∀ (skill : RemoteSkillM) (agent : AgentM) (opts : InstallOpts) (home : PathC)
        (env : FsEnv), opts.mode = InstallMode.symlink →
      ∀ v ∈ (installRemoteSkillForAgent skill agent opts home env).2.consumerViews,
        canonicalDirRemoteOf skill opts home ∈
          (installRemoteSkillForAgent skill agent opts home env).2.canonicalDirs) := by
  constructor
  · intro skill agent opts home env hm v hv
    rw [installSkill_views_canonical skill agent opts home env hm
      (List.ne_nil_of_mem hv)]
    exact List.mem_singleton.mpr rfl
  · intro skill agent opts home env hm v hv
    rw [installRemote_views_canonical skill agent opts home env hm
      (List.ne_nil_of_mem hv)]
    exact List.mem_singleton.mpr rfl

/-- Concrete inputs used by the witnesses and counterexamples. -/
def demoSkill : SkillM := { name := "foo".toList, path := "/tmp/foo".toList }

def demoRemoteSkill : RemoteSkillM :=
  { name := "bar".toList, content := "content".toList, installName := "bar".toList }

def demoAgent : AgentM :=
  { skillsDir := [".claude".toList, "skills".toList],
    globalSkillsDir := [['h'], ".claude".toList, "skills".toList] }

def demoOpts : InstallOpts := { cwd := [['p']] }

/-- Witness for C4 at a concrete symlink-mode install. -/
theorem C4_consumer_view_requires_canonical_witness :
    canonicalDirOf demoSkill demoOpts [['h']] ∈
      (installSkillForAgent demoSkill demoAgent demoOpts [['h']] {}).2.canonicalDirs :=
  C4_consumer_view_requires_canonical.1 demoSkill demoAgent demoOpts [['h']] {} rfl
    (agentDirOf demoSkill demoAgent demoOpts,
      ViewKind.link (canonicalDirOf demoSkill demoOpts [['h']])) (by decide)

/-- C4 counterexample: an explicit copy-mode install creates a consumer
view while creating no canonical entry at all, so the claim's "in both
symlink mode and copy mode" fails. -/
theorem C4_consumer_view_requires_canonical_cex :
    (installSkillForAgent demoSkill demoAgent
        { cwd := [['p']], mode := InstallMode.copy } [['h']] {}).2.consumerViews ≠ [] ∧
    (installSkillForAgent demoSkill demoAgent
        { cwd := [['p']], mode := InstallMode.copy } [['h']] {}).2.canonicalDirs = [] :=
  ⟨by decide, by decide⟩

/-- C1 (corrected): when symlink creation fails and the fallback copy
operations succeed, a symlink-mode install still succeeds by copying the
skill's content to the agent path, and the returned InstallResult reports
the requested mode `symlink` (not `copy`) together with
`symlinkFailed = true` and `success = true`; likewise for remote skills. -/
theorem C1_symlink_fallback_copy :
    (∀ (skill : SkillM) (agent : AgentM) (opts : InstallOpts) (home : PathC)
        (env : FsEnv),
      ValidSetup agent opts home → opts.mode = InstallMode.symlink →
      env.symlinkOk = false → env.ensureCanonical = none →
      env.materializeCanonical = none → env.mkdirAgent = none →
      env.materializeAgent = none →
      installSkillForAgent skill agent opts home env =
        ({ success := true, path := agentDirOf skill agent opts,
           canonicalPath := some (canonicalDirOf skill opts home),
           mode := InstallMode.symlink, symlinkFailed := true },
         { canonicalDirs := [canonicalDirOf skill opts home],
           consumerViews := [(agentDirOf skill agent opts, ViewKind.copied)] })) ∧
    (∀ (skill : RemoteSkillM) (agent : AgentM) (opts : InstallOpts) (home : PathC)
        (env : FsEnv),
      ValidSetup agent opts home → opts.mode = InstallMode.symlink →
      env.symlinkOk = false → env.ensureCanonical = none →
      env.materializeCanonical = none → env.mkdirAgent = none →
      env.materializeAgent = none →
      installRemoteSkillForAgent skill agent opts home env =
        ({ success := true, path := agentDirRemoteOf skill agent opts,
           canonicalPath := some (canonicalDirRemoteOf skill opts home),
           mode := InstallMode.symlink, symlinkFailed := true },
         { canonicalDirs := [canonicalDirRemoteOf skill opts home],
           consumerViews := [(agentDirRemoteOf skill agent opts, ViewKind.copied)] })) := by
  constructor
  · intro skill agent opts home env hset hm hsy he1 he2 hm1 hm2
    obtain ⟨hc1, hc2⟩ := install_checks_pass (skillNameOf skill) agent opts home
      (validComp_sanitizeName _) hset
    have hc1' : isPathSafe (canonicalBaseOf opts home)
        (canonicalDirOf skill opts home) = true := by
      rw [canonicalDirOf]
      exact hc1
    have hc2' : isPathSafe (agentBaseOf agent opts)
        (agentDirOf skill agent opts) = true := by
      rw [agentDirOf]
      exact hc2
    simp [installSkillForAgent, hm, hsy, he1, he2, hm1, hm2, hc1', hc2']
  · intro skill agent opts home env hset hm hsy he1 he2 hm1 hm2
    obtain ⟨hc1, hc2⟩ := install_checks_pass (sanitizeName skill.installName)
      agent opts home (validComp_sanitizeName _) hset
    have hc1' : isPathSafe (canonicalBaseOf opts home)
        (canonicalDirRemoteOf skill opts home) = true := by
      rw [canonicalDirRemoteOf]
      exact hc1
    have hc2' : isPathSafe (agentBaseOf agent opts)
        (agentDirRemoteOf skill agent opts) = true := by
      rw [agentDirRemoteOf]
      exact hc2
    simp [installRemoteSkillForAgent, hm, hsy, he1, he2, hm1, hm2, hc1', hc2']

/-- Witness for C1 at a concrete install with link creation disabled. -/
theorem C1_symlink_fallback_copy_witness :
    (installSkillForAgent demoSkill demoAgent demoOpts [['h']]
        { symlinkOk := false }).1.success = true ∧
    (installSkillForAgent demoSkill demoAgent demoOpts [['h']]
        { symlinkOk := false }).1.symlinkFailed = true := by
  have h := C1_symlink_fallback_copy.1 demoSkill demoAgent demoOpts [['h']]
    { symlinkOk := false }
    ⟨by decide, by decide, by decide, by decide, by decide, by decide⟩
    rfl rfl rfl rfl rfl rfl
  rw [h]
  exact ⟨rfl, rfl⟩

/-- C1 counterexample: on symlink failure the result's mode stays
`symlink` (with `symlinkFailed = true`); the claim's `mode = copy` is
false. -/
theorem C1_symlink_fallback_copy_cex :
    (installSkillForAgent demoSkill demoAgent demoOpts [['h']]
        { symlinkOk := false }).1.success = true ∧
    (installSkillForAgent demoSkill demoAgent demoOpts [['h']]
        { symlinkOk := false }).1.symlinkFailed = true ∧
    (installSkillForAgent demoSkill demoAgent demoOpts [['h']]
        { symlinkOk := false }).1.mode ≠ InstallMode.copy :=
  ⟨by decide, by decide, by decide⟩

/-! ### copyDirectory (the directory materializer) -/

mutual
/-- A filesystem entry as copyDirectory sees it: a regular file with its
content, a directory with its listing, or a symbolic link modelled
together with the entry its target resolves to. -/
inductive Entry where
  | file (content : List Char) : Entry
  | dir (entries : Listing) : Entry
  | symlinkTo (target : Entry) : Entry
/-- A directory listing: (name, entry) pairs as readdir returns them. -/
inductive Listing where
  | nil : Listing
  | cons (name : List Char) (e : Entry) (rest : Listing) : Listing
end

def EXCLUDE_FILES : List (List Char) := ["README.md".toList, "metadata.json".toList]

def EXCLUDE_DIRS : List (List Char) := [".git".toList]

/-- readdir's `Dirent.isDirectory()`: true only for a real directory (a
symlink is not reported as a directory). -/
def isDirEntry : Entry → Bool
  | Entry.dir _ => true
  | _ => false

/-- isExcluded from the installer: entries named README.md or
metadata.json (of any kind), any entry whose name starts with `_`, and
directories named `.git`. -/
def isExcluded (name : List Char) (isDirectory : Bool) : Bool :=
  EXCLUDE_FILES.contains name || name.head? == some '_' ||
    (isDirectory && EXCLUDE_DIRS.contains name)

mutual
/-- `cp` with `dereference: true`: the resolved target of every symlink is
copied instead of the link; no exclusion filtering happens inside. -/
def resolveEntry : Entry → Entry
  | Entry.file c => Entry.file c
  | Entry.dir es => Entry.dir (resolveListing es)
  | Entry.symlinkTo t => resolveEntry t
def resolveListing : Listing → Listing
  | Listing.nil => Listing.nil
  | Listing.cons n e rest => Listing.cons n (resolveEntry e) (resolveListing rest)
end

mutual
/-- copyDirectory: mirror the source listing skipping excluded entries;
a directory entry recurses through copyDirectory, every other entry goes
through `cp` with `dereference: true, recursive: true`. -/
def copyDirectory : Listing → Listing
  | Listing.nil => Listing.nil
  | Listing.cons n e rest =>
    if isExcluded n (isDirEntry e) then copyDirectory rest
    else Listing.cons n (copyOne e) (copyDirectory rest)
/-- The per-entry copy step of copyDirectory. -/
def copyOne : Entry → Entry
  | Entry.file c => Entry.file c
  | Entry.dir es => Entry.dir (copyDirectory es)
  | Entry.symlinkTo t => resolveEntry t
end

mutual
/-- True when the entry contains no symbolic link at any depth. -/
def linkFree : Entry → Bool
  | Entry.file _ => true
  | Entry.dir es => linkFreeListing es
  | Entry.symlinkTo _ => false
def linkFreeListing : Listing → Bool
  | Listing.nil => true
  | Listing.cons _ e rest => linkFree e && linkFreeListing rest
end

/-- A listing as a plain association list. -/
def listingToList : Listing → List (List Char × Entry)
  | Listing.nil => []
  | Listing.cons n e rest => (n, e) :: listingToList rest

mutual
theorem linkFree_resolveEntry : ∀ (e : Entry), linkFree (resolveEntry e) = true
  | Entry.file _ => rfl
  | Entry.dir es => by
    simp only [resolveEntry, linkFree]
    exact linkFreeListing_resolveListing es
  | Entry.symlinkTo t => by
    simp only [resolveEntry]
    exact linkFree_resolveEntry t
theorem linkFreeListing_resolveListing : ∀ (l : Listing),
    linkFreeListing (resolveListing l) = true
  | Listing.nil => rfl
  | Listing.cons n e rest => by
    simp only [resolveListing, linkFreeListing, linkFree_resolveEntry e,
      linkFreeListing_resolveListing rest, Bool.and_self]
end

mutual
theorem linkFree_copyOne : ∀ (e : Entry), linkFree (copyOne e) = true
  | Entry.file _ => rfl
  | Entry.dir es => by
    simp only [copyOne, linkFree]
    exact linkFreeListing_copyDirectory es
  | Entry.symlinkTo t => by
    simp only [copyOne]
    exact linkFree_resolveEntry t
theorem linkFreeListing_copyDirectory : ∀ (l : Listing),
    linkFreeListing (copyDirectory l) = true
  | Listing.nil => rfl
  | Listing.cons n e rest => by
    simp only [copyDirectory]
    split
    · exact linkFreeListing_copyDirectory rest
    · simp only [linkFreeListing, linkFree_copyOne e,
        linkFreeListing_copyDirectory rest, Bool.and_self]
end

theorem copyDirectory_filterMap : ∀ (es : Listing),
    listingToList (copyDirectory es) =
      (listingToList es).filterMap (fun p =>
        if isExcluded p.1 (isDirEntry p.2) then none
        else some (p.1, copyOne p.2))
  | Listing.nil => rfl
  | Listing.cons n e rest => by
    simp only [copyDirectory, listingToList, List.filterMap_cons]
    split
    · rw [copyDirectory_filterMap rest]
    · rw [listingToList, copyDirectory_filterMap rest]

/-- C8 (confirmed): copyDirectory mirrors the source listing excluding
exactly the fixed noise set — entries named README.md or metadata.json,
entries whose name starts with `_`, and `.git` directories — every
non-excluded entry is copied (directories recursively with the same
filter), and symbolic links are dereferenced: a link entry is replaced by
its fully resolved target content, and nothing in the copied output is a
link. -/
theorem C8_copyDirectory_mirrors :
    (∀ es : Listing, listingToList (copyDirectory es) =
      (listingToList es).filterMap (fun p =>
        if isExcluded p.1 (isDirEntry p.2) then none
        else some (p.1, copyOne p.2))) ∧
    (∀ t : Entry, copyOne (Entry.symlinkTo t) = resolveEntry t ∧
      linkFree (resolveEntry t) = true) ∧
    (∀ es : Listing, linkFreeListing (copyDirectory es) = true) :=
  ⟨copyDirectory_filterMap,
    fun t => ⟨rfl, linkFree_resolveEntry t⟩,
    linkFreeListing_copyDirectory⟩

/-! ### listInstalledSkills (the reconciler) -/

/-- A parsed SKILL.md descriptor. -/
structure SkillDesc where
  name : List Char
  description : List Char
deriving DecidableEq

/-- One entry of a canonical skills directory as readdir reports it,
together with the outcome of stat(SKILL.md) and parseSkillMd for it. -/
structure CanonEntry where
  name : List Char
  isDir : Bool
  hasSkillMd : Bool
  parsed : Option SkillDesc
deriving DecidableEq

/-- The reconciler's read-only view of one agent's skills directory for
one scope: whether an entry of a given name exists there (the fast path's
access check), and the readdir listing with each entry's directory flag
and SKILL.md parse result (the fallback scan). -/
structure AgentFS where
  pathExists : List Char → Bool
  entries : List (List Char × Bool × Option SkillDesc)

/-- ASCII whitespace, for the `\s` class of the slug's replace. -/
def isWsChar (c : Char) : Bool :=
  c == ' ' || c == '\t' || c == '\n' || c == '\r' || c.toNat == 11 || c.toNat == 12

/-- The whitespace-run collapse of
`.toLowerCase().replace(/\s+/g, '-')`. -/
def collapseWs : Bool → List Char → List Char
  | _, [] => []
  | inRun, c :: cs =>
    if isWsChar c then
      if inRun then collapseWs true cs else '-' :: collapseWs true cs
    else c :: collapseWs false cs

/-- The simplified slug used by the fast path:
`skill.name.toLowerCase().replace(/\s+/g, '-').replace(/[\/\\:\0]/g, '')`. -/
def simpleSlug (n : List Char) : List Char :=
  (collapseWs false (n.map toLowerChar)).filter
    (fun c => !(c == '/' || c == '\\' || c.toNat == 58 || c.toNat == 0))

/-- Strategy 1 (fast path): try the canonical entry's literal name, the
sanitized skill name and the simplified slug; a name whose joined path
fails isPathSafe is skipped, otherwise an access check decides.  The
source deduplicates the three names first, which does not change the
any-name-matches semantics. -/
def strategy1 (agentBase : PathC) (afs : AgentFS)
    (entryName sanitized slug : List Char) : Bool :=
  [entryName, sanitized, slug].any (fun n =>
    isPathSafe agentBase (agentBase ++ [n]) && afs.pathExists n)

/-- Strategy 2 (fallback scan): enumerate the agent directory, and for
each safe subdirectory whose SKILL.md parses, compare the declared name
for exact equality. -/
def strategy2 (agentBase : PathC) (afs : AgentFS) (skillName : List Char) : Bool :=
  afs.entries.any (fun e =>
    e.2.1 && isPathSafe agentBase (agentBase ++ [e.1]) &&
      (match e.2.2 with
       | some d => d.name == skillName
       | none => false))

/-- Layered matching for one agent: the fallback scan runs only when the
fast path misses. -/
def agentVisible (agentBase : PathC) (afs : AgentFS) (entryName : List Char)
    (skill : SkillDesc) : Bool :=
  strategy1 agentBase afs entryName (sanitizeName skill.name)
      (simpleSlug skill.name) ||
    strategy2 agentBase afs skill.name

/-- One reported installed skill: name, description, scope, and the
agents that expose it. -/
structure InstalledSkill where
  name : List Char
  description : List Char
  scopeGlobal : Bool
  agents : List (List Char)
deriving DecidableEq

/-- The body of listInstalledSkills for one scope: skip non-directories,
entries without SKILL.md and entries whose SKILL.md does not parse; for
each surviving skill report the subset of agents that expose it.  The
skill is pushed unconditionally — visibility only fills the agents
field. -/
def scanScope (cwd : PathC) (isGlobal : Bool)
    (agentsL : List (List Char × AgentM × AgentFS))
    (entries : List CanonEntry) : List InstalledSkill :=
  entries.filterMap (fun entry =>
    if entry.isDir = false then none
    else if entry.hasSkillMd = false then none
    else
      match entry.parsed with
      | none => none
      | some skill =>
        some { name := skill.name, description := skill.description,
               scopeGlobal := isGlobal,
               agents := (agentsL.filter (fun a =>
                 agentVisible
                   (if isGlobal then a.2.1.globalSkillsDir
                    else cwd ++ a.2.1.skillsDir)
                   a.2.2 entry.name skill)).map (fun a => a.1) })

/-- One scope to scan: its kind, its canonical-directory listing (`none`
when readdir throws because the directory does not exist), and the
per-agent filesystem views for this scope. -/
structure ScopeData where
  isGlobal : Bool
  entries : Option (List CanonEntry)
  agentsL : List (List Char × AgentM × AgentFS)

/-- listInstalledSkills: scan every requested scope, skipping scopes
whose canonical directory is missing. -/
def listInstalledSkills (cwd : PathC) (scopes : List ScopeData) :
    List InstalledSkill :=
  scopes.flatMap (fun sc =>
    match sc.entries with
    | none => []
    | some es => scanScope cwd sc.isGlobal sc.agentsL es)

/-- An agent filesystem in which nothing exists. -/
def emptyAgentFS : AgentFS := { pathExists := fun _ => false, entries := [] }

theorem scanScope_map_proj (cwd : PathC) (g : Bool)
    (agentsL : List (List Char × AgentM × AgentFS))
    (es : List CanonEntry) :
    (scanScope cwd g agentsL es).map
        (fun v => (v.name, v.description, v.scopeGlobal)) =
      es.filterMap (fun entry =>
        if entry.isDir = true ∧ entry.hasSkillMd = true then
          entry.parsed.map (fun d => (d.name, d.description, g))
        else none) := by
  rw [scanScope, List.map_filterMap]
  refine List.filterMap_congr (fun entry _ => ?_)
  cases hd : entry.isDir <;> cases hm : entry.hasSkillMd <;>
    cases hp : entry.parsed <;> simp [hd, hm, hp]

/-- C9 (confirmed): the reconciler's result contains one entry per
canonical-store subdirectory with a parseable descriptor, regardless of
the per-agent filesystem contents — visibility is reported in the agents
field, never used as a filter — and a skill no agent exposes is still
reported, with an empty agents set. -/
theorem C9_listInstalled_includes_all :
    (∀ (cwd : PathC) (scopes : List ScopeData),
      (listInstalledSkills cwd scopes).map
          (fun v => (v.name, v.description, v.scopeGlobal)) =
        scopes.flatMap (fun sc =>
          match sc.entries with
          | none => []
          | some es => es.filterMap (fun entry =>
              if entry.isDir = true ∧ entry.hasSkillMd = true then
                entry.parsed.map (fun d => (d.name, d.description, sc.isGlobal))
              else none))) ∧
    (∀ (cwd : PathC) (g : Bool) (agentId : List Char) (agent : AgentM)
        (es : List CanonEntry),
      ∀ v ∈ scanScope cwd g [(agentId, agent, emptyAgentFS)] es,
        v.agents = []) := by
  constructor
  · intro cwd scopes
    induction scopes with
    | nil => rfl
    | cons sc rest ih =>
      simp only [listInstalledSkills, List.flatMap_cons] at ih ⊢
      rw [List.map_append, ih]
      cases hsc : sc.entries with
      | none => rfl
      | some es =>
        rw [scanScope_map_proj]
  · intro cwd g agentId agent es v hv
    rw [scanScope] at hv
    rcases List.mem_filterMap.mp hv with ⟨entry, _, hf⟩
    cases hd : entry.isDir <;> cases hm : entry.hasSkillMd <;>
      cases hp : entry.parsed <;> simp [hd, hm, hp] at hf
    rw [← hf]
    simp [agentVisible, strategy1, strategy2, emptyAgentFS]

/-- Witness for C9: a canonical entry with a parseable descriptor and an
agent that exposes nothing — the skill is still reported, with no
agents. -/
theorem C9_listInstalled_includes_all_witness :
    ({ name := "foo".toList, description := ['d'], scopeGlobal := false,
       agents := [] } : InstalledSkill).agents = [] :=
  C9_listInstalled_includes_all.2 [['p']] false "claude".toList demoAgent
    [{ name := "foo".toList, isDir := true, hasSkillMd := true,
       parsed := some { name := "foo".toList, description := ['d'] } }]
    { name := "foo".toList, description := ['d'], scopeGlobal := false,
      agents := [] } (by decide)

/-! ### discoverSkills (skill discovery with name dedup) -/

/-- A skill discovered in some directory: its declared name and the
directory it came from. -/
structure DiscoveredSkill where
  name : List Char
  path : List Char
deriving DecidableEq

/-- The discovery push loop: each candidate directory yields either a
parsed skill (`some`) or nothing (`none`, when SKILL.md is absent or does
not parse); a parsed skill is pushed only when its name is not in the
seenNames set, which then records it. -/
def discoverLoop : List (Option DiscoveredSkill) → List (List Char) →
    List DiscoveredSkill
  | [], _ => []
  | none :: rest, seen => discoverLoop rest seen
  | some sk :: rest, seen =>
    if sk.name ∈ seen then discoverLoop rest seen
    else sk :: discoverLoop rest (sk.name :: seen)

/-- discoverSkills: if the search path itself holds a parseable SKILL.md,
return just that skill; otherwise collect the priority-directory
candidates, and only when that yields nothing fall back to the recursive
scan's candidates.  `direct = some po` means the search path has a
SKILL.md whose parse result is `po`; names are deduplicated by the shared
seenNames set. -/
def discoverSkills (direct : Option (Option DiscoveredSkill))
    (priorityCandidates fallbackCandidates : List (Option DiscoveredSkill)) :
    List DiscoveredSkill :=
  match direct with
  | some (some sk) => [sk]
  | _ =>
    let fromPriority := discoverLoop priorityCandidates []
    if fromPriority.isEmpty then discoverLoop fallbackCandidates []
    else fromPriority

/-- The stream of parsed candidates the returned list is drawn from:
the direct hit alone, or the priority candidates, or — only when the
priority pass kept nothing — the fallback candidates. -/
def consideredStream (direct : Option (Option DiscoveredSkill))
    (priorityCandidates fallbackCandidates : List (Option DiscoveredSkill)) :
    List DiscoveredSkill :=
  match direct with
  | some (some sk) => [sk]
  | _ =>
    if (discoverLoop priorityCandidates []).isEmpty
    then fallbackCandidates.filterMap id
    else priorityCandidates.filterMap id

theorem discoverLoop_not_seen : ∀ (cands : List (Option DiscoveredSkill))
    (seen : List (List Char)) (sk : DiscoveredSkill),
    sk ∈ discoverLoop cands seen → sk.name ∉ seen
  | [], _, _, h => by simp [discoverLoop] at h
  | none :: rest, seen, sk, h => discoverLoop_not_seen rest seen sk h
  | some x :: rest, seen, sk, h => by
    rw [discoverLoop] at h
    split at h
    · exact discoverLoop_not_seen rest seen sk h
    · next hx =>
      rcases List.mem_cons.mp h with rfl | h
      · exact hx
      · intro hmem
        exact discoverLoop_not_seen rest (x.name :: seen) sk h
          (List.mem_cons_of_mem _ hmem)

theorem discoverLoop_nodup : ∀ (cands : List (Option DiscoveredSkill))
    (seen : List (List Char)),
    ((discoverLoop cands seen).map (fun sk => sk.name)).Nodup
  | [], _ => by simp [discoverLoop]
  | none :: rest, seen => discoverLoop_nodup rest seen
  | some x :: rest, seen => by
    rw [discoverLoop]
    split
    · exact discoverLoop_nodup rest seen
    · rw [List.map_cons, List.nodup_cons]
      refine ⟨?_, discoverLoop_nodup rest (x.name :: seen)⟩
      intro hmem
      rcases List.mem_map.mp hmem with ⟨sk, hsk, hn⟩
      exact discoverLoop_not_seen rest (x.name :: seen) sk hsk
        (hn ▸ List.mem_cons_self _ _)

theorem discoverLoop_find : ∀ (cands : List (Option DiscoveredSkill))
    (seen : List (List Char)) (sk : DiscoveredSkill),
    sk ∈ discoverLoop cands seen →
    (cands.filterMap id).find? (fun x => x.name == sk.name) = some sk
  | [], _, _, h => by simp [discoverLoop] at h
  | none :: rest, seen, sk, h => by
    simp only [List.filterMap_cons, id_eq]
    exact discoverLoop_find rest seen sk h
  | some x :: rest, seen, sk, h => by
    rw [discoverLoop] at h
    simp only [List.filterMap_cons, id_eq]
    split at h
    · next hx =>
      have hns := discoverLoop_not_seen rest seen sk h
      have hxf : (x.name == sk.name) = false := by
        cases hbe : x.name == sk.name
        · rfl
        · exact absurd (beq_iff_eq.mp hbe) (fun he => hns (he ▸ hx))
      rw [List.find?_cons]
      simp only [hxf]
      exact discoverLoop_find rest seen sk h
    · next hx =>
      rcases List.mem_cons.mp h with rfl | h
      · simp [List.find?_cons]
      · have hns := discoverLoop_not_seen rest (x.name :: seen) sk h
        have hxf : (x.name == sk.name) = false := by
          cases hbe : x.name == sk.name
          · rfl
          · exact absurd (beq_iff_eq.mp hbe)
              (fun he => hns (he ▸ List.mem_cons_self _ _))
        rw [List.find?_cons]
        simp only [hxf]
        exact discoverLoop_find rest (x.name :: seen) sk h

theorem discoverLoop_complete : ∀ (cands : List (Option DiscoveredSkill))
    (seen : List (List Char)) (x : DiscoveredSkill),
    some x ∈ cands → x.name ∉ seen →
    ∃ sk ∈ discoverLoop cands seen, sk.name = x.name
  | [], _, _, h, _ => by simp at h
  | none :: rest, seen, x, h, hx => by
    rcases List.mem_cons.mp h with heq | h
    · exact absurd heq (by simp)
    · exact discoverLoop_complete rest seen x h hx
  | some y :: rest, seen, x, h, hx => by
    rw [discoverLoop]
    split
    · next hy =>
      rcases List.mem_cons.mp h with heq | h
      · have hxy : x = y := by
          injection heq
        exact absurd hy (hxy ▸ hx)
      · exact discoverLoop_complete rest seen x h hx
    · next hy =>
      rcases List.mem_cons.mp h with heq | h
      · have hxy : x = y := by
          injection heq
        exact ⟨y, List.mem_cons_self _ _, by rw [hxy]⟩
      · by_cases hn : x.name = y.name
        · exact ⟨y, List.mem_cons_self _ _, hn.symm⟩
        · obtain ⟨sk, hsk, hname⟩ :=
            discoverLoop_complete rest (y.name :: seen) x h
              (by
                intro hmem
                rcases List.mem_cons.mp hmem with he | he
                · exact hn he
                · exact hx he)
          exact ⟨sk, List.mem_cons_of_mem _ hsk, hname⟩

/-- C10 (confirmed): discoverSkills returns pairwise-distinct skill
names; when several discovered directories declare the same name, the one
kept is the first candidate encountered (it is what find? locates in the
considered candidate stream), later duplicates are dropped, and every
declared name of the considered stream is represented in the result. -/
theorem C10_discoverSkills_dedup (direct : Option (Option DiscoveredSkill))
    (p f : List (Option DiscoveredSkill)) :
    ((discoverSkills direct p f).map (fun sk => sk.name)).Nodup ∧
    (∀ sk ∈ discoverSkills direct p f,
      (consideredStream direct p f).find? (fun x => x.name == sk.name) =
        some sk) ∧
    (∀ x ∈ consideredStream direct p f,
      ∃ sk ∈ discoverSkills direct p f, sk.name = x.name) := by
  have main : ∀ (cands : List (Option DiscoveredSkill)),
      ((discoverLoop cands []).map (fun sk => sk.name)).Nodup ∧
      (∀ sk ∈ discoverLoop cands [],
        (cands.filterMap id).find? (fun x => x.name == sk.name) = some sk) ∧
      (∀ x ∈ cands.filterMap id,
        ∃ sk ∈ discoverLoop cands [], sk.name = x.name) := by
    intro cands
    refine ⟨discoverLoop_nodup cands [],
      fun sk hsk => discoverLoop_find cands [] sk hsk, fun x hx => ?_⟩
    have hmem : some x ∈ cands := by
      rcases List.mem_filterMap.mp hx with ⟨b, hb, hfb⟩
      rw [id_eq] at hfb
      exact hfb ▸ hb
    exact discoverLoop_complete cands [] x hmem (by simp)
  rcases direct with _ | po
  · simp only [discoverSkills, consideredStream]
    by_cases hp : (discoverLoop p []).isEmpty = true
    · simp only [hp, if_true]
      exact main f
    · simp only [hp, if_false]
      exact main p
  · rcases po with _ | sk
    · simp only [discoverSkills, consideredStream]
      by_cases hp : (discoverLoop p []).isEmpty = true
      · simp only [hp, if_true]
        exact main f
      · simp only [hp, if_false]
        exact main p
    · simp only [discoverSkills, consideredStream]
      refine ⟨by simp, fun y hy => ?_, fun x hx => ?_⟩
      · rw [List.mem_singleton] at hy
        subst hy
        simp [List.find?_cons]
      · rw [List.mem_singleton] at hx
        subst hx
        exact ⟨x, List.mem_singleton.mpr rfl, rfl⟩

/-- Discovered skills used by the C10 witness: two directories declaring
the same name `a`, then one declaring `b`. -/
def dskA : DiscoveredSkill := { name := ['a'], path := ['1'] }

def dskA2 : DiscoveredSkill := { name := ['a'], path := ['2'] }

def dskB : DiscoveredSkill := { name := ['b'], path := ['3'] }

/-- Witness for C10: of the two candidates named `a`, the first one is
the one the result keeps. -/
theorem C10_discoverSkills_dedup_witness :
    (consideredStream none [some dskA, some dskA2, some dskB] []).find?
        (fun x => x.name == dskA.name) = some dskA :=
  (C10_discoverSkills_dedup none [some dskA, some dskA2, some dskB] []).2.1
    dskA (by decide)

end SkillsInstall
